import Mathlib

/-!
Shallow embedding of the `cmprs` / `dcmprs` pair (a self-extracting
zstd executable packer).  Bytes are modelled as `Nat`, files as
`List Nat`.  External crates (sha2, zstd) are modelled as abstract
function parameters; everything written by the two `main` functions is
modelled from `src/cmprs/src/main.rs` and `src/dcmprs/src/main.rs`.
-/

namespace Cmprs

/-- `MAGIC_HEADER`: the 16-byte constant `b"DCMPRS_DATA_HERE"`,
shared by producer and runtime. -/
def MAGIC_HEADER : List Nat :=
  [68, 67, 77, 80, 82, 83, 95, 68, 65, 84, 65, 95, 72, 69, 82, 69]

/-- The three bytes `b";;;"` that `cmprs::main` writes right after the
magic header (line `output.write_all(b";;;")?`). -/
def SEMI : List Nat := [59, 59, 59]

/-- `dcmprs::find_magic_header`: scan
`0..buffer.len().saturating_sub(16)` for the first index whose 16-byte
slice equals the magic header. -/
def findMagicHeader (buffer : List Nat) : Option Nat :=
  (List.range (buffer.length - 16)).find?
    (fun i => decide ((buffer.drop i).take 16 = MAGIC_HEADER))

/-- The marker occurs as a substring of `buffer` at offset `i`. -/
def occursAt (buffer : List Nat) (i : Nat) : Prop :=
  i + 16 ≤ buffer.length ∧ (buffer.drop i).take 16 = MAGIC_HEADER

instance (buffer : List Nat) (i : Nat) : Decidable (occursAt buffer i) := by
  unfold occursAt; infer_instance

/-- Format-level failures of the runtime's decode steps
(`process::exit(1)` paths of `dcmprs::main`). -/
inductive FormatError where
  | markerNotFound
  | truncated
  deriving DecidableEq, Repr

/-- The runtime's decode procedure (`dcmprs::main` lines 38-60): find
the marker; fail if `data_start + 32 >= buffer.len()`; otherwise the
32 bytes after the marker are the stored digest and the rest is the
compressed payload. -/
def dcmprsDecode (buffer : List Nat) :
    Except FormatError (List Nat × List Nat) :=
  match findMagicHeader buffer with
  | none => .error .markerNotFound
  | some magicPos =>
    let dataStart := magicPos + 16
    if dataStart + 32 ≥ buffer.length then .error .truncated
    else .ok ((buffer.drop dataStart).take 32, buffer.drop (dataStart + 32))

/-- Observable actions of `cmprs::main`, in program order. -/
inductive CEvent where
  | warnNotExecutable
  | createOutput
  | write (bytes : List Nat)
  | setPerm (mode : Nat)
  deriving DecidableEq, Repr

/-- Trace of `cmprs::main` on the success path.  `bootstrap` is the
embedded `dcmprs` image, `sha` and `comp` stand for the sha2 / zstd
crates (the hash thread and compression thread results), `input` the
target file's bytes and `mode` its permission bits. -/
def cmprsEvents (bootstrap : List Nat) (sha comp : List Nat → List Nat)
    (input : List Nat) (mode : Nat) : List CEvent :=
  (if mode &&& 0o111 = 0 then [CEvent.warnNotExecutable] else []) ++
  [CEvent.createOutput,
   CEvent.write bootstrap,
   CEvent.write MAGIC_HEADER,
   CEvent.write SEMI,
   CEvent.write (sha input),
   CEvent.write (comp input),
   CEvent.setPerm mode]

/-- Concatenation of everything a trace writes to the output file. -/
def writtenBytes : List CEvent → List Nat
  | [] => []
  | CEvent.write bs :: rest => bs ++ writtenBytes rest
  | _ :: rest => writtenBytes rest

/-- The container file `cmprs::main` produces. -/
def cmprsOutput (bootstrap : List Nat) (sha comp : List Nat → List Nat)
    (input : List Nat) (mode : Nat) : List Nat :=
  writtenBytes (cmprsEvents bootstrap sha comp input mode)

/-- `std::process::Command` as built by `dcmprs::main`: a program
path, positional arguments pushed by `.args`, and environment
overrides pushed by `.env` in call order. -/
structure Cmd where
  program : String
  argv : List String
  envOverrides : List (String × String)
  deriving DecidableEq, Repr

/-- `Command::new(path)`. -/
def Cmd.new (p : String) : Cmd := ⟨p, [], []⟩

/-- `cmd.args(xs)`: append the arguments in order. -/
def Cmd.addArgs (c : Cmd) (xs : List String) : Cmd :=
  { c with argv := c.argv ++ xs }

/-- `cmd.env(k, v)`: record one environment override. -/
def Cmd.addEnv (c : Cmd) (k v : String) : Cmd :=
  { c with envOverrides := c.envOverrides ++ [(k, v)] }

/-- Apply environment overrides, in order, on top of a base
environment (the semantics of `Command` env overrides at exec time:
the child inherits the parent environment, each `.env(k,v)` call sets
key `k` to `v`). -/
def applyOverrides (base : String → Option String) :
    List (String × String) → (String → Option String)
  | [] => base
  | (k, v) :: rest =>
    applyOverrides (fun q => if q = k then some v else base q) rest

/-- The environment the exec'd child actually receives. -/
def Cmd.effectiveEnv (c : Cmd) (inherited : String → Option String) :
    String → Option String :=
  applyOverrides inherited c.envOverrides

/-- First-match lookup in an association list, the value `env::vars()`
exposes for a given variable name of the inherited environment. -/
def lookupEnv (q : String) (l : List (String × String)) : Option String :=
  (l.find? (fun kv => decide (kv.1 = q))).map (·.2)

/-- The invocation `dcmprs::main` builds (lines 96-98 and 131-139):
program = temp file path, arguments = `env::args().skip(1)`, one
`.env(k, v)` call per inherited variable. -/
def buildCmd (tempPath : String) (osArgs : List String)
    (osEnv : List (String × String)) : Cmd :=
  osEnv.foldl (fun c kv => c.addEnv kv.1 kv.2)
    ((Cmd.new tempPath).addArgs (osArgs.drop 1))

/-- Observable actions of `dcmprs::main`, in the linear order fixed by
its joins (the replacement thread's actions happen before
`replacement_handle.join()` returns, hence before the exec). -/
inductive DEvent where
  | warnNoMagic
  | warnTruncated
  | writeTemp (bytes : List Nat)
  | setTempPerm (mode : Nat)
  | replaceWrite (bytes : List Nat)
  | replaceSync
  | warnReplaceFailed
  | joinReplacement
  | execCall (c : Cmd)
  deriving DecidableEq, Repr

/-- How a run of `dcmprs::main` ends. -/
inductive RunResult where
  | exitCode (n : Nat)
  | ioError
  | execed (c : Cmd)
  deriving DecidableEq, Repr

/-- `dcmprs::main`: read own image (`buffer`), decode, decompress
(`decompress` stands for the zstd decoder, which may fail), write and
chmod the temp file, spawn the self-replacement thread
(`replacementOk` says whether opening the original path succeeded),
build the command, join the replacement thread, then exec (`execOk`
says whether `exec` itself succeeded; on success it never returns). -/
def dcmprsRun (decompress : List Nat → Except Unit (List Nat))
    (buffer : List Nat) (osArgs : List String)
    (osEnv : List (String × String)) (tempPath : String)
    (replacementOk execOk : Bool) : List DEvent × RunResult :=
  match findMagicHeader buffer with
  | none => ([.warnNoMagic], .exitCode 1)
  | some magicPos =>
    let dataStart := magicPos + 16
    if dataStart + 32 ≥ buffer.length then ([.warnTruncated], .exitCode 1)
    else
      match decompress (buffer.drop (dataStart + 32)) with
      | .error _ => ([], .ioError)
      | .ok dd =>
        let cmd := buildCmd tempPath osArgs osEnv
        ([.writeTemp dd, .setTempPerm 0o755] ++
         (if replacementOk then [.replaceWrite dd, .replaceSync]
          else [.warnReplaceFailed]) ++
         [.joinReplacement, .execCall cmd],
         if execOk then .execed cmd else .ioError)

/-- `e₁` occurs strictly before `e₂` in the trace `tr`. -/
def precedes (e₁ e₂ : DEvent) (tr : List DEvent) : Prop :=
  ∃ i j, i < j ∧ tr.get? i = some e₁ ∧ tr.get? j = some e₂

/-- `slice::chunks` with fuel (the fuel is the list length, enough
whenever the chunk size is positive). -/
def chunksGo (c : Nat) : Nat → List Nat → List (List Nat)
  | _, [] => []
  | 0, _ => []
  | fuel + 1, l => l.take c :: chunksGo c fuel (l.drop c)

/-- `data.chunks(c)`: consecutive chunks of size `c` (last one may be
shorter); yields nothing on empty data, like Rust's `chunks`. -/
def chunksOf (c : Nat) (l : List Nat) : List (List Nat) :=
  chunksGo c l.length l

/-- A stand-in 32-byte digest (what the abstract sha function
returns on the sample input). -/
def shaSample : List Nat := List.range 32

/-- A stand-in compressed payload. -/
def compSample : List Nat := [40, 181, 47, 253]

/-- A buffer whose decode succeeds: the marker at offset 0 followed by
33 bytes (32 for the digest slot, one payload byte). -/
def sampleOk : List Nat := MAGIC_HEADER ++ List.replicate 33 7

/-- A buffer with the marker at offset 0 but only 32 bytes after it:
the truncation check fires. -/
def sampleTrunc : List Nat := MAGIC_HEADER ++ List.replicate 32 7

/-- The byte stream the hash thread feeds to the hasher: one
`hasher.update(chunk)` per 1 MB chunk, in order
(`cmprs::main`, `hash_thread`, chunk_size = 1024 * 1024). -/
def hashThreadAbsorbed (data : List Nat) : List Nat :=
  (chunksOf (1024 * 1024) data).foldl (· ++ ·) []

/-- The digest the hash thread produces: `finalize` on everything
absorbed, for an arbitrary digest function `sha` of the absorbed
stream (the sha2 streaming contract). -/
def hashThreadDigest (sha : List Nat → List Nat) (data : List Nat) :
    List Nat :=
  sha (hashThreadAbsorbed data)

theorem find?_range_some {p : Nat → Bool} {n m : Nat}
    (h : (List.range n).find? p = some m) :
    p m = true ∧ m < n ∧ ∀ i < m, p i = false := by
  induction n with
  | zero => simp [List.range_zero] at h
  | succ k ih =>
    rw [List.range_succ, List.find?_append] at h
    cases hk : (List.range k).find? p with
    | some a =>
      rw [hk] at h
      simp only [Option.or_some] at h
      obtain rfl : a = m := by injection h
      obtain ⟨h1, h2, h3⟩ := ih hk
      exact ⟨h1, Nat.lt_succ_of_lt h2, h3⟩
    | none =>
      rw [hk] at h
      simp only [Option.none_or] at h
      by_cases hpk : p k
      · rw [List.find?_cons_of_pos _ hpk] at h
        obtain rfl : k = m := by injection h
        refine ⟨hpk, Nat.lt_succ_self _, fun i hi => ?_⟩
        have := List.find?_eq_none.mp hk i (List.mem_range.mpr hi)
        simpa using this
      · rw [List.find?_cons_of_neg _ hpk] at h
        simp at h

theorem find?_range_none {p : Nat → Bool} {n : Nat}
    (h : (List.range n).find? p = none) : ∀ i < n, p i = false := by
  intro i hi
  have := List.find?_eq_none.mp h i (List.mem_range.mpr hi)
  simpa using this

theorem findMagicHeader_some {buffer : List Nat} {m : Nat}
    (h : findMagicHeader buffer = some m) :
    occursAt buffer m ∧ m + 16 < buffer.length ∧ ∀ i < m, ¬ occursAt buffer i := by
  unfold findMagicHeader at h
  obtain ⟨hp, hlt, hmin⟩ := find?_range_some h
  have heq : (buffer.drop m).take 16 = MAGIC_HEADER := of_decide_eq_true hp
  refine ⟨⟨by omega, heq⟩, by omega, fun i hi hocc => ?_⟩
  have := hmin i hi
  simp [hocc.2] at this

theorem findMagicHeader_none {buffer : List Nat}
    (h : findMagicHeader buffer = none) :
    ∀ i, i + 16 < buffer.length → ¬ occursAt buffer i := by
  intro i hi hocc
  unfold findMagicHeader at h
  have := find?_range_none h i (by omega)
  simp [hocc.2] at this

theorem cmprsOutput_eq (bootstrap : List Nat) (sha comp : List Nat → List Nat)
    (input : List Nat) (mode : Nat) :
    cmprsOutput bootstrap sha comp input mode =
      bootstrap ++ MAGIC_HEADER ++ SEMI ++ sha input ++ comp input := by
  unfold cmprsOutput cmprsEvents
  split <;> simp [writtenBytes]

theorem dcmprsRun_none {decompress : List Nat → Except Unit (List Nat)}
    {buffer : List Nat} (osArgs : List String) (osEnv : List (String × String))
    (tempPath : String) (replacementOk execOk : Bool)
    (h : findMagicHeader buffer = none) :
    dcmprsRun decompress buffer osArgs osEnv tempPath replacementOk execOk =
      ([.warnNoMagic], .exitCode 1) := by
  unfold dcmprsRun
  rw [h]

theorem dcmprsRun_trunc {decompress : List Nat → Except Unit (List Nat)}
    {buffer : List Nat} {m : Nat} (osArgs : List String)
    (osEnv : List (String × String)) (tempPath : String)
    (replacementOk execOk : Bool)
    (hm : findMagicHeader buffer = some m)
    (hlen : m + 16 + 32 ≥ buffer.length) :
    dcmprsRun decompress buffer osArgs osEnv tempPath replacementOk execOk =
      ([.warnTruncated], .exitCode 1) := by
  unfold dcmprsRun
  rw [hm]
  simp only []
  rw [if_pos hlen]

theorem dcmprsRun_ok {decompress : List Nat → Except Unit (List Nat)}
    {buffer : List Nat} {m : Nat} {dd : List Nat} (osArgs : List String)
    (osEnv : List (String × String)) (tempPath : String)
    (replacementOk execOk : Bool)
    (hm : findMagicHeader buffer = some m)
    (hlen : m + 16 + 32 < buffer.length)
    (hd : decompress (buffer.drop (m + 16 + 32)) = .ok dd) :
    dcmprsRun decompress buffer osArgs osEnv tempPath replacementOk execOk =
      ([.writeTemp dd, .setTempPerm 0o755] ++
       (if replacementOk then [.replaceWrite dd, .replaceSync]
        else [.warnReplaceFailed]) ++
       [.joinReplacement, .execCall (buildCmd tempPath osArgs osEnv)],
       if execOk then .execed (buildCmd tempPath osArgs osEnv) else .ioError) := by
  unfold dcmprsRun
  rw [hm]
  simp only []
  rw [if_neg (by omega), hd]

/-- C3 (corrected, counterexample): a buffer that is exactly the
16-byte marker contains the marker at offset 0, yet
`find_magic_header` reports no match, because its scan range
`0..len.saturating_sub(16)` excludes the offset `len - 16`. -/
theorem find_magic_header_misses_tail_occurrence :
    occursAt MAGIC_HEADER 0 ∧ findMagicHeader MAGIC_HEADER = none := by
  decide

/-- C3 (amended): the marker search returns the smallest offset `m`
with `m + 16 < buffer.length` at which the marker occurs (an
occurrence ending exactly at the buffer's end is not detected); if no
such offset exists the search reports no match and decoding fails with
a marker-not-found diagnostic and exit code 1. -/
theorem find_magic_header_first_occurrence :
    ∀ buffer : List Nat,
      (∀ m, findMagicHeader buffer = some m →
        occursAt buffer m ∧ m + 16 < buffer.length ∧
        ∀ i < m, ¬ occursAt buffer i) ∧
      (findMagicHeader buffer = none →
        (∀ i, i + 16 < buffer.length → ¬ occursAt buffer i) ∧
        dcmprsDecode buffer = Except.error FormatError.markerNotFound ∧
        ∀ d a e tp ro eo, dcmprsRun d buffer a e tp ro eo =
          ([DEvent.warnNoMagic], RunResult.exitCode 1)) := by
  intro buffer
  constructor
  · intro m hm
    exact findMagicHeader_some hm
  · intro h
    refine ⟨findMagicHeader_none h, ?_,
      fun d a e tp ro eo => dcmprsRun_none a e tp ro eo h⟩
    unfold dcmprsDecode
    rw [h]

theorem find_magic_header_first_occurrence_witness :
    (occursAt sampleOk 0 ∧ 0 + 16 < sampleOk.length) ∧
    dcmprsDecode ([] : List Nat) = Except.error FormatError.markerNotFound := by
  have h1 := (find_magic_header_first_occurrence sampleOk).1 0 (by decide)
  have h2 := (find_magic_header_first_occurrence []).2 (by decide)
  exact ⟨⟨h1.1, h1.2.1⟩, h2.2.1⟩

/-- C4: with the marker at offset `m`, decoding fails with the
truncation error (exit code 1, no exec attempted) exactly when
`(m + 16) + 32 >= buffer.length`; otherwise it proceeds, treating
bytes `[m+16, m+48)` as the digest and the rest as the compressed
payload. -/
theorem dcmprs_truncation_boundary :
    ∀ (buffer : List Nat) (m : Nat), findMagicHeader buffer = some m →
      if m + 16 + 32 ≥ buffer.length then
        dcmprsDecode buffer = Except.error FormatError.truncated ∧
        ∀ d a e tp ro eo,
          (dcmprsRun d buffer a e tp ro eo =
            ([DEvent.warnTruncated], RunResult.exitCode 1)) ∧
          ∀ c, DEvent.execCall c ∉ (dcmprsRun d buffer a e tp ro eo).1
      else
        dcmprsDecode buffer =
          Except.ok ((buffer.drop (m + 16)).take 32, buffer.drop (m + 16 + 32)) := by
  intro buffer m hm
  split
  case isTrue h =>
    constructor
    · unfold dcmprsDecode
      rw [hm]
      simp only []
      rw [if_pos h]
    · intro d a e tp ro eo
      refine ⟨dcmprsRun_trunc a e tp ro eo hm h, fun c => ?_⟩
      rw [dcmprsRun_trunc a e tp ro eo hm h]
      simp
  case isFalse h =>
    unfold dcmprsDecode
    rw [hm]
    simp only []
    rw [if_neg h]

theorem dcmprs_truncation_boundary_witness :
    dcmprsDecode sampleTrunc = Except.error FormatError.truncated ∧
    dcmprsDecode sampleOk =
      Except.ok ((sampleOk.drop 16).take 32, sampleOk.drop 48) := by
  have ht := dcmprs_truncation_boundary sampleTrunc 0 (by decide)
  rw [if_pos (show 0 + 16 + 32 ≥ sampleTrunc.length by decide)] at ht
  have hk := dcmprs_truncation_boundary sampleOk 0 (by decide)
  rw [if_neg (show ¬ 0 + 16 + 32 ≥ sampleOk.length by decide)] at hk
  exact ⟨ht.1, hk⟩

/-- C5: the decode steps stay in bounds on every buffer: each slice
`buffer[i..i+16)` compared during the scan is within the buffer, and
when the marker is found at `m`, the digest slice start `m + 16` and,
past the truncation guard, the payload slice start `m + 48` are within
the buffer.  (All embedded decode functions are total: no panic.) -/
theorem dcmprs_decode_in_bounds :
    ∀ buffer : List Nat,
      (∀ i, i < buffer.length - 16 → i + 16 ≤ buffer.length) ∧
      (∀ m, findMagicHeader buffer = some m →
        m + 16 ≤ buffer.length ∧
        (m + 16 + 32 < buffer.length → m + 16 + 32 ≤ buffer.length)) := by
  intro buffer
  refine ⟨fun i hi => by omega, fun m hm => ?_⟩
  have h := (findMagicHeader_some hm).2.1
  exact ⟨by omega, by omega⟩

theorem dcmprs_decode_in_bounds_witness :
    5 + 16 ≤ sampleOk.length ∧ 0 + 16 ≤ sampleOk.length ∧
    0 + 16 + 32 ≤ sampleOk.length := by
  have h := dcmprs_decode_in_bounds sampleOk
  have h2 := h.2 0 (by decide)
  exact ⟨h.1 5 (by decide), h2.1, h2.2 (by decide)⟩

/-- C1 (code bug, evaluated at a failing input): decoding the
container the producer builds (here: empty bootstrap, target file
`[0]`, a 32-byte digest `shaSample`, compressed payload `compSample`)
does not yield the stored digest or the compressed payload: the
producer's extra `b";;;"` write shifts everything by 3 bytes, so the
decoded digest is `;;;` plus the first 29 digest bytes, and the
decoded payload starts with the digest's last 3 bytes. -/
theorem decode_of_produced_container :
    dcmprsDecode (cmprsOutput [] (fun _ => shaSample) (fun _ => compSample) [0] 493) =
      Except.ok (SEMI ++ shaSample.take 29, shaSample.drop 29 ++ compSample) ∧
    SEMI ++ shaSample.take 29 ≠ shaSample ∧
    shaSample.drop 29 ++ compSample ≠ compSample := by
  refine ⟨by rfl, by decide, by decide⟩

/-- C2 (code bug): in every container the producer writes, the bytes
immediately after the 16-byte marker are `;;;` (59, 59, 59), and the
digest only follows after them — not immediately after the marker as
the format documentation and the decoder assume; concretely the
32 bytes after the marker differ from the stored digest. -/
theorem produced_container_layout :
    ∀ (bootstrap : List Nat) (sha comp : List Nat → List Nat)
      (input : List Nat) (mode : Nat),
      (cmprsOutput bootstrap sha comp input mode).drop (bootstrap.length + 16) =
        SEMI ++ sha input ++ comp input ∧
      ((cmprsOutput [] (fun _ => shaSample) (fun _ => compSample) [0] 493).drop 16).take 32 ≠
        shaSample := by
  intro b s c i m
  constructor
  · rw [cmprsOutput_eq]
    rw [show b ++ MAGIC_HEADER ++ SEMI ++ s i ++ c i
        = (b ++ MAGIC_HEADER) ++ (SEMI ++ s i ++ c i) by
      simp [List.append_assoc]]
    rw [List.drop_left' (by simp [MAGIC_HEADER])]
  · decide

/-- C6: the producer's trace ends with exactly one permission change,
setting the output's mode to the input file's mode, after every
content write; a non-executable input only adds a warning, the run
still performs all the same steps. -/
theorem cmprs_sets_input_permissions :
    ∀ (bootstrap : List Nat) (sha comp : List Nat → List Nat)
      (input : List Nat) (mode : Nat),
      (∃ pre, cmprsEvents bootstrap sha comp input mode =
          pre ++ [CEvent.setPerm mode] ∧
        (∀ p, CEvent.setPerm p ∉ pre) ∧
        CEvent.write bootstrap ∈ pre ∧ CEvent.write (sha input) ∈ pre ∧
        CEvent.write (comp input) ∈ pre) ∧
      (CEvent.warnNotExecutable ∈ cmprsEvents bootstrap sha comp input mode ↔
        mode &&& 0o111 = 0) := by
  intro b s c i m
  by_cases h : m &&& 0o111 = 0
  · refine ⟨⟨[CEvent.warnNotExecutable, CEvent.createOutput, CEvent.write b,
      CEvent.write MAGIC_HEADER, CEvent.write SEMI, CEvent.write (s i),
      CEvent.write (c i)], ?_, ?_, ?_, ?_, ?_⟩, ?_⟩ <;>
      simp [cmprsEvents, h]
  · refine ⟨⟨[CEvent.createOutput, CEvent.write b,
      CEvent.write MAGIC_HEADER, CEvent.write SEMI, CEvent.write (s i),
      CEvent.write (c i)], ?_, ?_, ?_, ?_, ?_⟩, ?_⟩ <;>
      simp [cmprsEvents, h]

theorem cmprs_sets_input_permissions_witness :
    (CEvent.warnNotExecutable ∈
      cmprsEvents [5] (fun _ => shaSample) (fun _ => compSample) [0] 420) ∧
    (CEvent.warnNotExecutable ∉
      cmprsEvents [5] (fun _ => shaSample) (fun _ => compSample) [0] 493) := by
  refine ⟨?_, ?_⟩
  · exact (cmprs_sets_input_permissions [5] (fun _ => shaSample)
      (fun _ => compSample) [0] 420).2.mpr (by decide)
  · intro hmem
    have := (cmprs_sets_input_permissions [5] (fun _ => shaSample)
      (fun _ => compSample) [0] 493).2.mp hmem
    simp at this

theorem foldl_append_eq (L : List (List Nat)) (acc : List Nat) :
    L.foldl (· ++ ·) acc = acc ++ L.flatten := by
  induction L generalizing acc with
  | nil => simp
  | cons x xs ih => simp [List.foldl_cons, ih, List.append_assoc]

theorem chunksGo_join {c : Nat} (hc : 0 < c) :
    ∀ (fuel : Nat) (l : List Nat), l.length ≤ fuel →
      (chunksGo c fuel l).flatten = l := by
  intro fuel
  induction fuel with
  | zero =>
    intro l hl
    have : l = [] := List.length_eq_zero.mp (Nat.le_zero.mp hl)
    subst this
    simp [chunksGo]
  | succ k ih =>
    intro l hl
    cases l with
    | nil => simp [chunksGo]
    | cons x xs =>
      rw [show chunksGo c (k + 1) (x :: xs) =
          (x :: xs).take c :: chunksGo c k ((x :: xs).drop c) from rfl]
      simp only [List.flatten_cons]
      rw [ih ((x :: xs).drop c) (by
        simp only [List.length_drop, List.length_cons] at hl ⊢
        omega)]
      exact List.take_append_drop c (x :: xs)

theorem chunks_foldl_eq {c : Nat} (hc : 0 < c) (data : List Nat) :
    (chunksOf c data).foldl (· ++ ·) [] = data := by
  rw [foldl_append_eq]
  simpa [chunksOf] using chunksGo_join hc data.length data (Nat.le_refl _)

/-- C7: feeding the input to the hasher in fixed-size chunks absorbs
exactly the whole input, so the digest equals the digest of the whole
buffer taken at once, for any digest function of the absorbed stream;
and this holds for every positive chunk size, not just the 1 MB one. -/
theorem chunked_hash_equals_whole :
    ∀ (sha : List Nat → List Nat) (data : List Nat),
      hashThreadDigest sha data = sha data ∧
      ∀ c, 0 < c → (chunksOf c data).foldl (· ++ ·) [] = data := by
  intro sha data
  refine ⟨?_, fun c hc => chunks_foldl_eq hc data⟩
  unfold hashThreadDigest hashThreadAbsorbed
  rw [chunks_foldl_eq (by norm_num) data]

theorem chunked_hash_equals_whole_witness :
    hashThreadDigest (fun l => l) [1, 2, 3] = [1, 2, 3] ∧
    (chunksOf 2 [1, 2, 3]).foldl (· ++ ·) [] = [1, 2, 3] :=
  ⟨(chunked_hash_equals_whole (fun l => l) [1, 2, 3]).1,
   (chunked_hash_equals_whole (fun l => l) [1, 2, 3]).2 2 (by decide)⟩

theorem foldl_addEnv_program (l : List (String × String)) (c : Cmd) :
    (l.foldl (fun c kv => c.addEnv kv.1 kv.2) c).program = c.program := by
  induction l generalizing c with
  | nil => rfl
  | cons kv rest ih =>
    rw [List.foldl_cons, ih]
    rfl

theorem foldl_addEnv_argv (l : List (String × String)) (c : Cmd) :
    (l.foldl (fun c kv => c.addEnv kv.1 kv.2) c).argv = c.argv := by
  induction l generalizing c with
  | nil => rfl
  | cons kv rest ih =>
    rw [List.foldl_cons, ih]
    rfl

theorem foldl_addEnv_envOverrides (l : List (String × String)) (c : Cmd) :
    (l.foldl (fun c kv => c.addEnv kv.1 kv.2) c).envOverrides =
      c.envOverrides ++ l := by
  induction l generalizing c with
  | nil => simp
  | cons kv rest ih =>
    rw [List.foldl_cons, ih]
    simp [Cmd.addEnv, List.append_assoc]

theorem applyOverrides_of_base :
    ∀ (l : List (String × String)) (base : String → Option String),
      (∀ kv ∈ l, base kv.1 = some kv.2) →
      ∀ q, applyOverrides base l q = base q := by
  intro l
  induction l with
  | nil => intro base h q; rfl
  | cons kv rest ih =>
    intro base h q
    obtain ⟨k, v⟩ := kv
    show applyOverrides (fun r => if r = k then some v else base r) rest q = base q
    have hbase : (fun r => if r = k then some v else base r) = base := by
      funext r
      by_cases hr : r = k
      · subst hr
        rw [if_pos rfl]
        exact (h (r, v) (by simp)).symm
      · rw [if_neg hr]
    rw [hbase]
    exact ih base (fun kv hm => h kv (List.mem_cons_of_mem _ hm)) q

theorem lookupEnv_self_of_nodup :
    ∀ (l : List (String × String)), (l.map Prod.fst).Nodup →
      ∀ kv ∈ l, lookupEnv kv.1 l = some kv.2 := by
  intro l
  induction l with
  | nil => intro _ kv h; simp at h
  | cons hd tl ih =>
    intro hnd kv hm
    rw [List.map_cons, List.nodup_cons] at hnd
    obtain ⟨hhd, htl⟩ := hnd
    rcases List.mem_cons.mp hm with heq | hm'
    · subst heq
      unfold lookupEnv
      rw [List.find?_cons_of_pos _ (by simp)]
      rfl
    · have hne : hd.1 ≠ kv.1 := by
        intro he
        exact hhd (he ▸ List.mem_map_of_mem Prod.fst hm')
      unfold lookupEnv
      rw [List.find?_cons_of_neg _ (by simp [hne])]
      exact ih htl kv hm'

/-- C8: the invocation the runtime builds and execs has the temporary
file as program, exactly the original arguments minus the runtime's
own program name, in order, and an effective environment equal to the
inherited one (each inherited variable is re-set to its own value);
the exec'd command in the run's trace is exactly this invocation. -/
theorem exec_invocation_args_env :
    ∀ (tempPath : String) (osArgs : List String)
      (osEnv : List (String × String)),
      (buildCmd tempPath osArgs osEnv).program = tempPath ∧
      (buildCmd tempPath osArgs osEnv).argv = osArgs.drop 1 ∧
      ((osEnv.map Prod.fst).Nodup →
        ∀ q, (buildCmd tempPath osArgs osEnv).effectiveEnv
          (fun r => lookupEnv r osEnv) q = lookupEnv q osEnv) ∧
      (∀ d buffer ro eo m dd, findMagicHeader buffer = some m →
        m + 16 + 32 < buffer.length →
        d (buffer.drop (m + 16 + 32)) = Except.ok dd →
        DEvent.execCall (buildCmd tempPath osArgs osEnv) ∈
          (dcmprsRun d buffer osArgs osEnv tempPath ro eo).1) := by
  intro tp a e
  refine ⟨?_, ?_, ?_, ?_⟩
  · unfold buildCmd
    rw [foldl_addEnv_program]
    rfl
  · unfold buildCmd
    rw [foldl_addEnv_argv]
    simp [Cmd.addArgs, Cmd.new]
  · intro hnd q
    unfold buildCmd Cmd.effectiveEnv
    rw [foldl_addEnv_envOverrides]
    simp only [Cmd.addArgs, Cmd.new, List.nil_append]
    exact applyOverrides_of_base e _
      (fun kv hm => lookupEnv_self_of_nodup e hnd kv hm) q
  · intro d buffer ro eo m dd hm hlen hd
    rw [dcmprsRun_ok a e tp ro eo hm hlen hd]
    cases ro <;> simp

theorem exec_invocation_args_env_witness :
    (buildCmd "/tmp/t" ["prog", "--flag", "value"] [("FOO", "bar")]).argv =
      ["--flag", "value"] ∧
    (buildCmd "/tmp/t" ["prog", "--flag", "value"] [("FOO", "bar")]).effectiveEnv
      (fun r => lookupEnv r [("FOO", "bar")]) "FOO" =
      lookupEnv "FOO" [("FOO", "bar")] ∧
    DEvent.execCall (buildCmd "/tmp/t" ["prog", "--flag", "value"] [("FOO", "bar")]) ∈
      (dcmprsRun (fun _ => Except.ok [7]) sampleOk ["prog", "--flag", "value"]
        [("FOO", "bar")] "/tmp/t" true true).1 := by
  have h := exec_invocation_args_env "/tmp/t" ["prog", "--flag", "value"]
    [("FOO", "bar")]
  exact ⟨h.2.1, h.2.2.1 (by simp) "FOO",
    h.2.2.2 (fun _ => Except.ok [7]) sampleOk true true 0 [7]
      (by decide) (by decide) rfl⟩

/-- C9: the run's outcome never depends on whether the
self-replacement succeeded; when replacement fails only a warning is
emitted and the exec still happens; and the replacement thread is
joined before the exec attempt in every case. -/
theorem replacement_failure_nonfatal :
    ∀ (d : List Nat → Except Unit (List Nat)) (buffer : List Nat)
      (a : List String) (e : List (String × String)) (tp : String)
      (eo : Bool) (m : Nat) (dd : List Nat),
      (∀ ro₁ ro₂, (dcmprsRun d buffer a e tp ro₁ eo).2 =
        (dcmprsRun d buffer a e tp ro₂ eo).2) ∧
      (findMagicHeader buffer = some m →
        m + 16 + 32 < buffer.length →
        d (buffer.drop (m + 16 + 32)) = Except.ok dd →
        DEvent.warnReplaceFailed ∈ (dcmprsRun d buffer a e tp false eo).1 ∧
        DEvent.execCall (buildCmd tp a e) ∈ (dcmprsRun d buffer a e tp false eo).1 ∧
        ∀ ro, precedes DEvent.joinReplacement (DEvent.execCall (buildCmd tp a e))
          (dcmprsRun d buffer a e tp ro eo).1) := by
  intro d buffer a e tp eo m dd
  constructor
  · intro ro₁ ro₂
    unfold dcmprsRun
    cases hfm : findMagicHeader buffer with
    | none => rfl
    | some m' =>
      simp only []
      split
      · rfl
      · cases hd : d (buffer.drop (m' + 16 + 32)) with
        | error u => rfl
        | ok dd' => rfl
  · intro hm hlen hd
    refine ⟨?_, ?_, ?_⟩
    · rw [dcmprsRun_ok a e tp false eo hm hlen hd]
      simp
    · rw [dcmprsRun_ok a e tp false eo hm hlen hd]
      simp
    · intro ro
      rw [dcmprsRun_ok a e tp ro eo hm hlen hd]
      cases ro
      · exact ⟨3, 4, by omega, rfl, rfl⟩
      · exact ⟨4, 5, by omega, rfl, rfl⟩

theorem replacement_failure_nonfatal_witness :
    (dcmprsRun (fun _ => Except.ok [7]) sampleOk ["p"] [] "/tmp/t" false true).2 =
      (dcmprsRun (fun _ => Except.ok [7]) sampleOk ["p"] [] "/tmp/t" true true).2 ∧
    DEvent.warnReplaceFailed ∈
      (dcmprsRun (fun _ => Except.ok [7]) sampleOk ["p"] [] "/tmp/t" false true).1 := by
  have h := replacement_failure_nonfatal (fun _ => Except.ok [7]) sampleOk
    ["p"] [] "/tmp/t" true 0 [7]
  exact ⟨h.1 false true, (h.2 (by decide) (by decide) rfl).1⟩

/-- C10: on every successful decode the runtime sets the temporary
file's mode to exactly 0o755 (the literal in the code, independent of
every run parameter), and does so before the exec attempt. -/
theorem temp_file_mode_is_0755 :
    ∀ (d : List Nat → Except Unit (List Nat)) (buffer : List Nat)
      (a : List String) (e : List (String × String)) (tp : String)
      (ro eo : Bool) (m : Nat) (dd : List Nat),
      findMagicHeader buffer = some m →
      m + 16 + 32 < buffer.length →
      d (buffer.drop (m + 16 + 32)) = Except.ok dd →
      (∀ p, DEvent.setTempPerm p ∈ (dcmprsRun d buffer a e tp ro eo).1 → p = 0o755) ∧
      DEvent.setTempPerm 0o755 ∈ (dcmprsRun d buffer a e tp ro eo).1 ∧
      precedes (DEvent.setTempPerm 0o755) (DEvent.execCall (buildCmd tp a e))
        (dcmprsRun d buffer a e tp ro eo).1 := by
  intro d buffer a e tp ro eo m dd hm hlen hd
  rw [dcmprsRun_ok a e tp ro eo hm hlen hd]
  refine ⟨?_, ?_, ?_⟩
  · intro p hp
    cases ro <;> simp at hp <;> exact hp
  · cases ro <;> simp
  · cases ro
    · exact ⟨1, 4, by omega, rfl, rfl⟩
    · exact ⟨1, 5, by omega, rfl, rfl⟩

theorem temp_file_mode_is_0755_witness :
    DEvent.setTempPerm 0o755 ∈
      (dcmprsRun (fun _ => Except.ok [7]) sampleOk ["p"] [] "/tmp/t" true true).1 :=
  (temp_file_mode_is_0755 (fun _ => Except.ok [7]) sampleOk ["p"] [] "/tmp/t"
    true true 0 [7] (by decide) (by decide) rfl).2.1

end Cmprs
